import Mathlib

/-!
Verification of the image-to-document converter in src/TIF2PDF.py.

The file shallowly embeds the catalog operations (scan_folder,
reverse_selection, move_up, move_down), the two export pipelines
(convert_to_pdf, convert_to_ppt) and the orchestrator entry point
(start_conversion) as executable Lean definitions, and proves or refutes
the specification claims about them.

Conventions of the embedding:
- Python strings are Lean String values; the helpers strLower, strTrim,
  strEndsWith and strStartsWithDot reimplement the corresponding Python
  string operations structurally so that the kernel can evaluate them.
- The filesystem is passed in explicitly: a directory is a listing of
  file names, and the predicate isDir is an oracle argument.
- The platform of the source program is Windows (the source calls
  os.startfile), so file-name matching done by glob.glob is modelled
  case-insensitively, as fnmatch behaves there after os.path.normcase.
- Image decoding outcomes (whether an image opens, whether an insertion
  succeeds) are oracle booleans attached to each batch item, since they
  depend on bytes on disk that the program treats opaquely.
-/

set_option maxRecDepth 4000

/-- Lower-casing of a string, character by character, mirroring
str.lower on the ASCII range that file extensions use. -/
def strLower (s : String) : String :=
  String.mk (s.data.map Char.toLower)

/-- Suffix test on strings, mirroring str.endswith. -/
def strEndsWith (s p : String) : Bool :=
  List.isSuffixOf p.data s.data

/-- True when the file name begins with a dot. glob.glob never matches
such names with a pattern whose component does not itself begin with a
dot, so the pattern *.ext used by scan_folder skips them. -/
def strStartsWithDot (s : String) : Bool :=
  match s.data with
  | [] => false
  | c :: _ => c == '.'

/-- Whitespace stripping at both ends, mirroring str.strip(). -/
def strTrim (s : String) : String :=
  String.mk (((s.data.dropWhile Char.isWhitespace).reverse.dropWhile
    Char.isWhitespace).reverse)

/-- The SUPPORTED_FORMATS constant of src/TIF2PDF.py. The Python value
is a set whose iteration order is unspecified; the scan result is proved
independent of this order, so a fixed list is adequate. -/
def SUPPORTED_FORMATS : List String :=
  [".jpg", ".jpeg", ".png", ".bmp", ".gif",
   ".tif", ".tiff", ".webp", ".ico", ".ppm"]

/-- The four states of the format filter combo box in scan_folder. -/
inductive FormatFilter
  | all
  | pngJpg
  | tifOnly
  | bmpOnly
deriving DecidableEq

/-- The continue-conditions of the scan loop: which extension globs run
under each filter setting. -/
def extKept (f : FormatFilter) (ext : String) : Bool :=
  match f with
  | .all => true
  | .pngJpg => ext == ".jpg" || ext == ".jpeg" || ext == ".png"
  | .tifOnly => ext == ".tif" || ext == ".tiff"
  | .bmpOnly => ext == ".bmp"

/-- The extensions whose glob patterns scan_folder runs for a filter. -/
def allowedExts (f : FormatFilter) : List String :=
  SUPPORTED_FORMATS.filter (fun e => extKept f e)

/-- One glob.glob call with pattern *ext over a directory listing:
matches names ending (case-insensitively, Windows normcase) in ext,
except names starting with a dot. -/
def globMatch (ext name : String) : Bool :=
  !(strStartsWithDot name) && strEndsWith (strLower name) ext

/-- The accumulation loop of scan_folder: image_files starts empty and
is extended by one glob result per allowed extension. -/
def scan_raw (listing : List String) (f : FormatFilter) : List String :=
  (allowedExts f).foldl
    (fun acc ext => acc ++ listing.filter (fun name => globMatch ext name)) []

/-- Lexicographic comparison of character lists by code point, the
order Python sorted() uses on strings. Defined structurally so that the
kernel can evaluate it on concrete paths. -/
def lexLe : List Char → List Char → Bool
  | [], _ => true
  | _ :: _, [] => false
  | a :: as, b :: bs => if a < b then true else if b < a then false else lexLe as bs

/-- Lexicographic string comparison, as a proposition for sorting. -/
def strLeP (a b : String) : Prop := lexLe a.data b.data = true

instance : DecidableRel strLeP :=
  fun a b => instDecidableEqBool (lexLe a.data b.data) true

/-- The final catalog produced by a successful scan:
sorted(list(set(image_files))) becomes deduplication followed by an
ascending lexicographic sort. -/
def scan_files (listing : List String) (f : FormatFilter) : List String :=
  List.insertionSort strLeP (scan_raw listing f).dedup

/-- Specification-side predicate, from the spec words only: a file whose
extension is in the supported set, case-insensitively. Used to compare
the scan result against the claim that scanning keeps exactly these. -/
def specHasSupportedExt (name : String) : Bool :=
  SUPPORTED_FORMATS.any (fun e => strEndsWith (strLower name) e)

/-- The diagnostic logged by scan_folder on a missing or non-directory
input path. -/
def scanErrorLog : String := "错误：请先选择有效的文件夹路径"

/-- The completion log line of scan_folder. -/
def scanDoneLog : String := "扫描完成"

/-- scan_folder of src/TIF2PDF.py as a state transformer: it takes the
previous catalog (self.image_files), the raw path-entry text, the
os.path.isdir oracle, the filter and the directory listing, and returns
the new catalog together with the log lines emitted. On an empty or
non-directory path it returns early, leaving the catalog untouched. -/
def scan_folder (prev : List String) (folder : String) (isDir : Bool)
    (f : FormatFilter) (listing : List String) : List String × List String :=
  if strTrim folder = "" ∨ isDir = false then (prev, [scanErrorLog])
  else (scan_files listing f, [scanDoneLog])

/-- reverse_selection of src/TIF2PDF.py: starting from the current
listbox selection, every index of range(size) that is not selected is
added with selection_set; nothing is ever cleared. -/
def reverse_selection (n : ℕ) (selected : Finset ℕ) : Finset ℕ :=
  (List.range n).foldl (fun s i => if i ∈ selected then s else insert i s)
    selected

/-- Swap of the adjacent positions n and n+1 of a list; lists too short
for the swap are returned unchanged. This is the elementary step of
move_up (at positions i-1, i) and move_down (at positions i, i+1). -/
def swapAdj {α : Type} : List α → ℕ → List α
  | [], _ => []
  | x :: t, 0 =>
    match t with
    | [] => [x]
    | y :: t2 => y :: x :: t2
  | x :: t, n + 1 => x :: swapAdj t n

/-- One iteration of the move_up loop: for a selected index i, swap the
entries at i-1 and i when i > 0. -/
def moveUpStep (fs : List String) (i : ℕ) : List String :=
  if 0 < i then swapAdj fs (i - 1) else fs

/-- One iteration of the move_down loop: for a selected index i, swap
the entries at i and i+1 when i < len - 1 (an int comparison in the
source, hence the cast). -/
def moveDownStep (fs : List String) (i : ℕ) : List String :=
  if (i : ℤ) < (fs.length : ℤ) - 1 then swapAdj fs i else fs

/-- move_up of src/TIF2PDF.py on the catalog. selected is the ascending
list returned by curselection. The whole call returns early when the
selection is empty or its first index is 0. -/
def move_up (selected : List ℕ) (files : List String) : List String :=
  if selected.isEmpty then files
  else if selected.headD 0 = 0 then files
  else selected.foldl moveUpStep files

/-- move_down of src/TIF2PDF.py on the catalog. The whole call returns
early when the selection is empty or its last index equals len - 1; the
loop then runs over the selection in reversed order. -/
def move_down (selected : List ℕ) (files : List String) : List String :=
  if selected.isEmpty then files
  else if (selected.getLastD 0 : ℤ) = (files.length : ℤ) - 1 then files
  else selected.reverse.foldl moveDownStep files

/-- The PIL image modes relevant to the recompress branch of
convert_to_pdf. -/
inductive PILMode
  | one
  | L
  | LA
  | P
  | RGB
  | RGBA
  | CMYK
  | YCbCr
deriving DecidableEq, Fintype

/-- The mode conversion of the compress branch of convert_to_pdf: only
RGBA and CMYK sources are converted to RGB; every other mode passes
through unchanged. -/
def normalizeForJpeg (m : PILMode) : PILMode :=
  match m with
  | .RGBA => .RGB
  | .CMYK => .RGB
  | m => m

/-- Modelled from the Pillow JPEG encoder (the external dependency the
source calls through img.save(format=JPEG)): the modes it can write.
Saving any other mode raises, which the per-item handler of
convert_to_pdf catches, skipping the item. -/
def jpegSavable (m : PILMode) : Bool :=
  match m with
  | .one | .L | .RGB | .CMYK | .YCbCr => true
  | _ => false

/-- Whether a mode carries an alpha band. -/
def hasAlpha (m : PILMode) : Bool :=
  match m with
  | .RGBA | .LA => true
  | _ => false

/-- Number of channels of a mode. -/
def channels (m : PILMode) : ℕ :=
  match m with
  | .one => 1
  | .L => 1
  | .LA => 2
  | .P => 1
  | .RGB => 3
  | .RGBA => 4
  | .CMYK => 4
  | .YCbCr => 3

/-- The mode of the image embedded by the compress branch of
convert_to_pdf for a source of mode m: the source is normalized, then
JPEG-encoded; none means the encoder raised and the item was skipped. -/
def recompress_embed (m : PILMode) : Option PILMode :=
  let m2 := normalizeForJpeg m
  if jpegSavable m2 then some m2 else none

/-- Per-item oracle for convert_to_pdf. The try block has two stages
around the new_page call: openOk is the outcome of everything before
new_page (Image.open, the size read, and in compress mode the
RGB-convert and JPEG re-encode), and insertOk the outcome of the
insert_image call that follows new_page. new_page itself is an
in-memory page append and is not a failure point. -/
structure PdfItem where
  openOk : Bool
  insertOk : Bool

/-- Observable outcome of one convert_to_pdf run: pages appended to the
document (new_page calls), images actually embedded (insert_image
successes), items that hit the except handler, and the indices at which
the progress bar was updated, in emission order. -/
structure PdfRun where
  pages : ℕ
  images : ℕ
  skipped : ℕ
  events : List ℕ

/-- The per-item loop of convert_to_pdf from item index i onward. A
failure before new_page skips the item with no page; a failure at
insert_image happens after new_page in both the lossless branch and
the compress branch, so the already-appended blank page stays in the
document while the handler logs and continues; only full success
reaches the progress update. -/
def convert_to_pdf_loop : ℕ → List PdfItem → PdfRun
  | _, [] => ⟨0, 0, 0, []⟩
  | i, it :: rest =>
    let r := convert_to_pdf_loop (i + 1) rest
    if it.openOk then
      if it.insertOk then ⟨r.pages + 1, r.images + 1, r.skipped, i :: r.events⟩
      else ⟨r.pages + 1, r.images, r.skipped + 1, r.events⟩
    else ⟨r.pages, r.images, r.skipped + 1, r.events⟩

/-- convert_to_pdf of src/TIF2PDF.py, observed through page count,
embedded-image count, skip count and progress events. -/
def convert_to_pdf_run (items : List PdfItem) : PdfRun :=
  convert_to_pdf_loop 0 items

/-- Per-item oracle for convert_to_ppt: whether Image.open succeeds on
the item (dimension read) and whether add_picture succeeds. -/
structure PptItem where
  dimsOk : Bool
  insertOk : Bool

/-- Observable outcome of one convert_to_ppt run: slides added to the
deck, pictures actually inserted, progress-update indices, and the
slide count claimed by the completion log, which is the raw entry
count. -/
structure PptRun where
  slides : ℕ
  pics : ℕ
  events : List ℕ
  reportedSlides : ℕ

/-- The per-item loop of convert_to_ppt from index i onward. When the
dimension read fails the loop continues before any slide is added; when
it succeeds a slide is added first, and an insertion failure then
continues past the progress update, leaving the already-added blank
slide in the deck. -/
def convert_to_ppt_loop : ℕ → List PptItem → ℕ × ℕ × List ℕ
  | _, [] => (0, 0, [])
  | i, it :: rest =>
    let r := convert_to_ppt_loop (i + 1) rest
    if it.dimsOk then
      if it.insertOk then (r.1 + 1, r.2.1 + 1, i :: r.2.2)
      else (r.1 + 1, r.2.1, r.2.2)
    else r

/-- convert_to_ppt of src/TIF2PDF.py, observed through slide count,
inserted-picture count, progress events and the reported slide count
(the completion log prints the total entry count as the slide count). -/
def convert_to_ppt_run (items : List PptItem) : PptRun :=
  let r := convert_to_ppt_loop 0 items
  ⟨r.1, r.2.1, r.2.2, items.length⟩

/-- EMU per inch, the base length unit of the python-pptx library: a
plain integer passed to add_picture is interpreted as EMU. -/
def EMU_PER_INCH : ℤ := 914400

/-- EMU per typographic point in python-pptx (Pt multiplies by this). -/
def EMU_PER_POINT : ℤ := 12700

/-- The value of Inches(0.5) from pptx.util, used by the blank layout
branch of convert_to_ppt for both offsets. -/
def inchesHalf : ℤ := 457200

/-- Geometry passed to add_picture, in the EMU the library reads. -/
structure Placement where
  left : ℤ
  top : ℤ
  width : ℤ
  height : ℤ
deriving DecidableEq

/-- The blank-layout branch of convert_to_ppt: offsets Inches(0.5), and
the raw pixel dimensions of the image passed directly as the width and
height arguments. -/
def convert_to_ppt_blank_placement (w h : ℕ) : Placement :=
  ⟨inchesHalf, inchesHalf, (w : ℤ), (h : ℤ)⟩

/-- The two output formats of the converter. -/
inductive OutputFormat
  | pdf
  | ppt
deriving DecidableEq

/-- Outcome of start_conversion before any exporter work happens. -/
inductive StartOutcome
  | rejectedNoImages
  | rejectedNoOutput
  | launched (fmt : OutputFormat) (output : String)
deriving DecidableEq

/-- start_conversion of src/TIF2PDF.py: the synchronous validation that
runs on the calling thread. Only the launched outcome ever reaches
convert_images, which dispatches to an exporter on the worker thread. -/
def start_conversion (files : List String) (outRaw : String)
    (fmt : OutputFormat) : StartOutcome :=
  if files.isEmpty then .rejectedNoImages
  else
    let o := strTrim outRaw
    if o = "" then .rejectedNoOutput
    else .launched fmt o

/-- True on the two validation-rejection outcomes, on which no exporter
is invoked. -/
def isRejected : StartOutcome → Bool
  | .launched _ _ => false
  | _ => true

/-- Unfolding equation for lexLe on two nonempty lists. -/
theorem lexLe_cons_cons (x y : Char) (as bs : List Char) :
    lexLe (x :: as) (y :: bs)
      = if x < y then true else if y < x then false else lexLe as bs := rfl

/-- lexLe is total. -/
theorem lexLe_total : ∀ a b : List Char, lexLe a b = true ∨ lexLe b a = true := by
  intro a
  induction a with
  | nil => intro b; exact Or.inl rfl
  | cons x as ih =>
    intro b
    cases b with
    | nil => exact Or.inr rfl
    | cons y bs =>
      rw [lexLe_cons_cons, lexLe_cons_cons]
      rcases lt_trichotomy x y with h | h | h
      · left; rw [if_pos h]
      · subst h
        simp only [if_neg (lt_irrefl x)]
        exact ih bs
      · right; rw [if_pos h]

/-- lexLe is transitive. -/
theorem lexLe_trans : ∀ (a b c : List Char),
    lexLe a b = true → lexLe b c = true → lexLe a c = true := by
  intro a
  induction a with
  | nil => intro b c _ _; rfl
  | cons x as ih =>
    intro b c hab hbc
    cases b with
    | nil => exact absurd hab (by simp [lexLe])
    | cons y bs =>
      cases c with
      | nil => exact absurd hbc (by simp [lexLe])
      | cons z cs =>
        rw [lexLe_cons_cons] at hab hbc ⊢
        rcases lt_trichotomy x y with hxy | hxy | hxy
        · rcases lt_trichotomy y z with hyz | hyz | hyz
          · rw [if_pos (lt_trans hxy hyz)]
          · subst hyz; rw [if_pos hxy]
          · rw [if_neg (asymm hyz), if_pos hyz] at hbc
            exact absurd hbc (by simp)
        · subst hxy
          rw [if_neg (lt_irrefl x), if_neg (lt_irrefl x)] at hab
          rcases lt_trichotomy x z with hxz | hxz | hxz
          · rw [if_pos hxz]
          · subst hxz
            rw [if_neg (lt_irrefl x), if_neg (lt_irrefl x)] at hbc ⊢
            exact ih bs cs hab hbc
          · rw [if_neg (asymm hxz), if_pos hxz] at hbc
            exact absurd hbc (by simp)
        · rw [if_neg (asymm hxy), if_pos hxy] at hab
          exact absurd hab (by simp)

/-- lexLe is antisymmetric. -/
theorem lexLe_antisymm : ∀ (a b : List Char),
    lexLe a b = true → lexLe b a = true → a = b := by
  intro a
  induction a with
  | nil =>
    intro b hab hba
    cases b with
    | nil => rfl
    | cons y bs => exact absurd hba (by simp [lexLe])
  | cons x as ih =>
    intro b hab hba
    cases b with
    | nil => exact absurd hab (by simp [lexLe])
    | cons y bs =>
      rw [lexLe_cons_cons] at hab hba
      rcases lt_trichotomy x y with h | h | h
      · rw [if_neg (asymm h), if_pos h] at hba
        exact absurd hba (by simp)
      · subst h
        rw [if_neg (lt_irrefl x), if_neg (lt_irrefl x)] at hab hba
        exact congrArg (List.cons x) (ih bs hab hba)
      · rw [if_neg (asymm h), if_pos h] at hab
        exact absurd hab (by simp)

instance : IsTotal String strLeP :=
  ⟨fun a b => lexLe_total a.data b.data⟩

instance : IsTrans String strLeP :=
  ⟨fun a b c => lexLe_trans a.data b.data c.data⟩

instance : IsAntisymm String strLeP :=
  ⟨fun a b hab hba => by
    cases a with
    | mk da =>
      cases b with
      | mk db => exact congrArg String.mk (lexLe_antisymm da db hab hba)⟩

/-- swapAdj preserves length. -/
theorem swapAdj_length {α : Type} : ∀ (l : List α) (n : ℕ),
    (swapAdj l n).length = l.length := by
  intro l
  induction l with
  | nil => intro n; cases n <;> rfl
  | cons x t ih =>
    intro n
    cases n with
    | zero =>
      cases t with
      | nil => rfl
      | cons y t2 => rfl
    | succ m =>
      show (x :: swapAdj t m).length = (x :: t).length
      simp [ih m]

/-- swapAdj is a permutation. -/
theorem swapAdj_perm {α : Type} : ∀ (l : List α) (n : ℕ),
    List.Perm (swapAdj l n) l := by
  intro l
  induction l with
  | nil => intro n; cases n <;> exact List.Perm.refl _
  | cons x t ih =>
    intro n
    cases n with
    | zero =>
      cases t with
      | nil => exact List.Perm.refl _
      | cons y t2 => exact List.Perm.swap x y t2
    | succ m =>
      show List.Perm (x :: swapAdj t m) (x :: t)
      exact (ih m).cons x

/-- Positions other than n and n+1 are unchanged by swapAdj. -/
theorem swapAdj_getElem?_ne {α : Type} : ∀ (l : List α) (n k : ℕ),
    k ≠ n → k ≠ n + 1 → (swapAdj l n)[k]? = l[k]? := by
  intro l
  induction l with
  | nil => intro n k _ _; cases n <;> rfl
  | cons x t ih =>
    intro n k h1 h2
    cases n with
    | zero =>
      cases t with
      | nil => rfl
      | cons y t2 =>
        obtain ⟨k2, rfl⟩ : ∃ k2, k = k2 + 2 := ⟨k - 2, by omega⟩
        show (y :: x :: t2)[k2 + 2]? = (x :: y :: t2)[k2 + 2]?
        simp [List.getElem?_cons_succ]
    | succ m =>
      cases k with
      | zero =>
        show (x :: swapAdj t m)[0]? = (x :: t)[0]?
        simp
      | succ k2 =>
        show (x :: swapAdj t m)[k2 + 1]? = (x :: t)[k2 + 1]?
        simp only [List.getElem?_cons_succ]
        exact ih m k2 (by omega) (by omega)

/-- After swapAdj, position n holds what was at position n+1. -/
theorem swapAdj_getElem?_fst {α : Type} : ∀ (l : List α) (n : ℕ),
    n + 1 < l.length → (swapAdj l n)[n]? = l[n + 1]? := by
  intro l
  induction l with
  | nil => intro n h; exact absurd h (by simp)
  | cons x t ih =>
    intro n h
    cases n with
    | zero =>
      cases t with
      | nil => exact absurd h (by simp)
      | cons y t2 =>
        show (y :: x :: t2)[0]? = (x :: y :: t2)[0 + 1]?
        simp
    | succ m =>
      show (x :: swapAdj t m)[m + 1]? = (x :: t)[m + 2]?
      simp only [List.getElem?_cons_succ]
      exact ih m (by simpa using h)

/-- After swapAdj, position n+1 holds what was at position n. -/
theorem swapAdj_getElem?_snd {α : Type} : ∀ (l : List α) (n : ℕ),
    n + 1 < l.length → (swapAdj l n)[n + 1]? = l[n]? := by
  intro l
  induction l with
  | nil => intro n h; exact absurd h (by simp)
  | cons x t ih =>
    intro n h
    cases n with
    | zero =>
      cases t with
      | nil => exact absurd h (by simp)
      | cons y t2 =>
        show (y :: x :: t2)[0 + 1]? = (x :: y :: t2)[0]?
        simp
    | succ m =>
      show (x :: swapAdj t m)[m + 2]? = (x :: t)[m + 1]?
      simp only [List.getElem?_cons_succ]
      exact ih m (by simpa using h)

/-- A fold of steps that are each permutations is a permutation. -/
theorem foldl_perm_of_step (step : List String → ℕ → List String)
    (hstep : ∀ fs i, List.Perm (step fs i) fs) :
    ∀ (sel : List ℕ) (files : List String),
    List.Perm (sel.foldl step files) files := by
  intro sel
  induction sel with
  | nil => intro files; exact List.Perm.refl _
  | cons i t ih => intro files; exact (ih (step files i)).trans (hstep files i)

/-- Each move_up step is a permutation. -/
theorem moveUpStep_perm (fs : List String) (i : ℕ) :
    List.Perm (moveUpStep fs i) fs := by
  unfold moveUpStep
  split
  · exact swapAdj_perm fs (i - 1)
  · exact List.Perm.refl fs

/-- Each move_down step is a permutation. -/
theorem moveDownStep_perm (fs : List String) (i : ℕ) :
    List.Perm (moveDownStep fs i) fs := by
  unfold moveDownStep
  split
  · exact swapAdj_perm fs i
  · exact List.Perm.refl fs

/-- The default-valued head of a nonempty list is a member. -/
theorem headD_mem (l : List ℕ) (d : ℕ) (h : l ≠ []) : l.headD d ∈ l := by
  cases l with
  | nil => exact absurd rfl h
  | cons x t => exact List.mem_cons_self x t

/-- The default-valued last element of a nonempty list is a member. -/
theorem getLastD_mem (l : List ℕ) (d : ℕ) (h : l ≠ []) : l.getLastD d ∈ l := by
  cases l with
  | nil => exact absurd rfl h
  | cons x t =>
    rw [List.getLastD_cons]
    exact List.getLastD_mem_cons t x

/-- On a nonempty selection avoiding index 0, move_up runs its loop. -/
theorem move_up_eq_foldl (sel : List ℕ) (files : List String)
    (hne : sel ≠ []) (h0 : 0 ∉ sel) :
    move_up sel files = sel.foldl moveUpStep files := by
  have hA : sel.isEmpty = false := by
    cases sel with
    | nil => exact absurd rfl hne
    | cons a t => rfl
  have hB : ¬ (sel.headD 0 = 0) := fun h => h0 (h ▸ headD_mem sel 0 hne)
  unfold move_up
  rw [hA]
  rw [if_neg Bool.false_ne_true, if_neg hB]

/-- On a nonempty selection whose last index is not len - 1, move_down
runs its loop over the reversed selection. -/
theorem move_down_eq_foldl (sel : List ℕ) (files : List String)
    (hne : sel ≠ [])
    (hlast : ¬ ((sel.getLastD 0 : ℤ) = (files.length : ℤ) - 1)) :
    move_down sel files = sel.reverse.foldl moveDownStep files := by
  have hA : sel.isEmpty = false := by
    cases sel with
    | nil => exact absurd rfl hne
    | cons a t => rfl
  unfold move_down
  rw [hA]
  rw [if_neg Bool.false_ne_true, if_neg hlast]

/-- The move_up loop leaves every position above all selected indices
unchanged. -/
theorem moveUp_foldl_preserve_hi : ∀ (sel : List ℕ) (k : ℕ),
    (∀ i ∈ sel, i < k) → ∀ fs : List String,
    (sel.foldl moveUpStep fs)[k]? = fs[k]? := by
  intro sel
  induction sel with
  | nil => intro k _ fs; rfl
  | cons i t ih =>
    intro k h fs
    have hi : i < k := h i (List.mem_cons_self i t)
    have ht : ∀ x ∈ t, x < k := fun x hx => h x (List.mem_cons_of_mem i hx)
    show (t.foldl moveUpStep (moveUpStep fs i))[k]? = fs[k]?
    rw [ih k ht]
    unfold moveUpStep
    by_cases h0 : 0 < i
    · rw [if_pos h0]
      exact swapAdj_getElem?_ne fs (i - 1) k (by omega) (by omega)
    · rw [if_neg h0]

/-- The move_up loop leaves every position strictly below all selected
swap windows unchanged. -/
theorem moveUp_foldl_preserve_lo : ∀ (sel : List ℕ) (k : ℕ),
    (∀ i ∈ sel, k + 1 < i) → ∀ fs : List String,
    (sel.foldl moveUpStep fs)[k]? = fs[k]? := by
  intro sel
  induction sel with
  | nil => intro k _ fs; rfl
  | cons i t ih =>
    intro k h fs
    have hi : k + 1 < i := h i (List.mem_cons_self i t)
    have ht : ∀ x ∈ t, k + 1 < x := fun x hx => h x (List.mem_cons_of_mem i hx)
    show (t.foldl moveUpStep (moveUpStep fs i))[k]? = fs[k]?
    rw [ih k ht]
    unfold moveUpStep
    rw [if_pos (by omega : 0 < i)]
    exact swapAdj_getElem?_ne fs (i - 1) k (by omega) (by omega)

/-- The move_down loop leaves every position strictly below all selected
indices unchanged. -/
theorem moveDown_foldl_preserve_lo : ∀ (sel : List ℕ) (k : ℕ),
    (∀ i ∈ sel, k < i) → ∀ fs : List String,
    (sel.foldl moveDownStep fs)[k]? = fs[k]? := by
  intro sel
  induction sel with
  | nil => intro k _ fs; rfl
  | cons i t ih =>
    intro k h fs
    have hi : k < i := h i (List.mem_cons_self i t)
    have ht : ∀ x ∈ t, k < x := fun x hx => h x (List.mem_cons_of_mem i hx)
    show (t.foldl moveDownStep (moveDownStep fs i))[k]? = fs[k]?
    rw [ih k ht]
    unfold moveDownStep
    by_cases hc : (i : ℤ) < (fs.length : ℤ) - 1
    · rw [if_pos hc]
      exact swapAdj_getElem?_ne fs i k (by omega) (by omega)
    · rw [if_neg hc]

/-- The move_down loop leaves every position above all selected swap
windows unchanged. -/
theorem moveDown_foldl_preserve_hi : ∀ (sel : List ℕ) (k : ℕ),
    (∀ i ∈ sel, i + 1 < k) → ∀ fs : List String,
    (sel.foldl moveDownStep fs)[k]? = fs[k]? := by
  intro sel
  induction sel with
  | nil => intro k _ fs; rfl
  | cons i t ih =>
    intro k h fs
    have hi : i + 1 < k := h i (List.mem_cons_self i t)
    have ht : ∀ x ∈ t, x + 1 < k := fun x hx => h x (List.mem_cons_of_mem i hx)
    show (t.foldl moveDownStep (moveDownStep fs i))[k]? = fs[k]?
    rw [ih k ht]
    unfold moveDownStep
    by_cases hc : (i : ℤ) < (fs.length : ℤ) - 1
    · rw [if_pos hc]
      exact swapAdj_getElem?_ne fs i k (by omega) (by omega)
    · rw [if_neg hc]

/-- When the selection is strictly ascending, avoids index 0 and stays
in range, move_up puts the entry of each selected index j at j - 1. -/
theorem move_up_moves (sel : List ℕ) (files : List String)
    (hs : List.Sorted (· < ·) sel) (h0 : 0 ∉ sel)
    (hlt : ∀ i ∈ sel, i < files.length) :
    ∀ j ∈ sel, (move_up sel files)[j - 1]? = files[j]? := by
  intro j hj
  have hne : sel ≠ [] := List.ne_nil_of_mem hj
  rw [move_up_eq_foldl sel files hne h0]
  have hj0 : 0 < j := Nat.pos_of_ne_zero (fun h => h0 (h ▸ hj))
  have hjlen : j < files.length := hlt j hj
  obtain ⟨pre, post, rfl⟩ := List.append_of_mem hj
  have hsplit := List.pairwise_append.mp hs
  have hpre : ∀ a ∈ pre, a < j :=
    fun a ha => hsplit.2.2 a ha j (List.mem_cons_self j post)
  have hpost : ∀ b ∈ post, j < b := (List.pairwise_cons.mp hsplit.2.1).1
  rw [List.foldl_append]
  show (post.foldl moveUpStep
      (moveUpStep (pre.foldl moveUpStep files) j))[j - 1]? = files[j]?
  have hlen1 : (pre.foldl moveUpStep files).length = files.length :=
    (foldl_perm_of_step moveUpStep moveUpStep_perm pre files).length_eq
  rw [moveUp_foldl_preserve_lo post (j - 1)
    (fun i hi => by have := hpost i hi; omega)]
  have hstep : moveUpStep (pre.foldl moveUpStep files) j
      = swapAdj (pre.foldl moveUpStep files) (j - 1) := if_pos hj0
  rw [hstep]
  rw [swapAdj_getElem?_fst (pre.foldl moveUpStep files) (j - 1) (by omega)]
  have hj1 : j - 1 + 1 = j := by omega
  rw [hj1]
  exact moveUp_foldl_preserve_hi pre j hpre files

/-- When the selection is strictly ascending and every selected index
has room below, move_down puts the entry of each selected j at j + 1. -/
theorem move_down_moves (sel : List ℕ) (files : List String)
    (hs : List.Sorted (· < ·) sel)
    (hlt : ∀ i ∈ sel, i + 1 < files.length) :
    ∀ j ∈ sel, (move_down sel files)[j + 1]? = files[j]? := by
  intro j hj
  have hne : sel ≠ [] := List.ne_nil_of_mem hj
  have hlast : ¬ ((sel.getLastD 0 : ℤ) = (files.length : ℤ) - 1) := by
    have hm := getLastD_mem sel 0 hne
    have := hlt _ hm
    omega
  rw [move_down_eq_foldl sel files hne hlast]
  have hjlen : j + 1 < files.length := hlt j hj
  obtain ⟨pre, post, rfl⟩ := List.append_of_mem hj
  have hsplit := List.pairwise_append.mp hs
  have hpre : ∀ a ∈ pre, a < j :=
    fun a ha => hsplit.2.2 a ha j (List.mem_cons_self j post)
  have hpost : ∀ b ∈ post, j < b := (List.pairwise_cons.mp hsplit.2.1).1
  rw [List.reverse_append, List.reverse_cons, List.foldl_append,
    List.foldl_append]
  show (pre.reverse.foldl moveDownStep
      (moveDownStep (post.reverse.foldl moveDownStep files) j))[j + 1]?
    = files[j]?
  have hlen1 : (post.reverse.foldl moveDownStep files).length = files.length :=
    (foldl_perm_of_step moveDownStep moveDownStep_perm post.reverse
      files).length_eq
  rw [moveDown_foldl_preserve_hi pre.reverse (j + 1)
    (fun i hi => by have := hpre i (List.mem_reverse.mp hi); omega)]
  have hstep : moveDownStep (post.reverse.foldl moveDownStep files) j
      = swapAdj (post.reverse.foldl moveDownStep files) j :=
    if_pos (by omega : (j : ℤ) < ((post.reverse.foldl moveDownStep
      files).length : ℤ) - 1)
  rw [hstep]
  rw [swapAdj_getElem?_snd (post.reverse.foldl moveDownStep files) j
    (by omega)]
  exact moveDown_foldl_preserve_lo post.reverse j
    (fun i hi => hpost i (List.mem_reverse.mp hi)) files

/-- Membership in the extension-glob accumulation loop. -/
theorem mem_foldl_glob (listing : List String) : ∀ (exts acc : List String)
    (name : String),
    (name ∈ exts.foldl
      (fun a e => a ++ listing.filter (fun nm => globMatch e nm)) acc)
    ↔ name ∈ acc ∨ ∃ e ∈ exts, name ∈ listing ∧ globMatch e name = true := by
  intro exts
  induction exts with
  | nil => intro acc name; simp
  | cons e t ih =>
    intro acc name
    rw [List.foldl_cons, ih]
    constructor
    · rintro (hmem | ⟨e2, he2, hrest⟩)
      · rcases List.mem_append.mp hmem with ha | hf
        · exact Or.inl ha
        · have hm := List.mem_filter.mp hf
          exact Or.inr ⟨e, List.mem_cons_self e t, hm.1, hm.2⟩
      · exact Or.inr ⟨e2, List.mem_cons_of_mem e he2, hrest⟩
    · rintro (ha | ⟨e2, he2, hn, hg⟩)
      · exact Or.inl (List.mem_append.mpr (Or.inl ha))
      · rcases List.mem_cons.mp he2 with rfl | he2t
        · exact Or.inl (List.mem_append.mpr
            (Or.inr (List.mem_filter.mpr ⟨hn, hg⟩)))
        · exact Or.inr ⟨e2, he2t, hn, hg⟩

/-- Membership in the raw scan accumulation. -/
theorem mem_scan_raw (listing : List String) (f : FormatFilter)
    (name : String) :
    name ∈ scan_raw listing f
    ↔ ∃ e ∈ allowedExts f, name ∈ listing ∧ globMatch e name = true := by
  unfold scan_raw
  rw [mem_foldl_glob]
  simp

/-- Membership in the final scan result: exactly the listed names that
some allowed extension glob matches. -/
theorem mem_scan_files (listing : List String) (f : FormatFilter)
    (name : String) :
    name ∈ scan_files listing f
    ↔ name ∈ listing
      ∧ (allowedExts f).any (fun e => globMatch e name) = true := by
  unfold scan_files
  rw [(List.perm_insertionSort strLeP (scan_raw listing f).dedup).mem_iff,
    List.mem_dedup, mem_scan_raw, List.any_eq_true]
  constructor
  · rintro ⟨e, he, hn, hg⟩
    exact ⟨hn, e, he, hg⟩
  · rintro ⟨hn, e, he, hg⟩
    exact ⟨e, he, hn, hg⟩

/-- The scan result is sorted lexicographically ascending. -/
theorem scan_files_sorted (listing : List String) (f : FormatFilter) :
    List.Sorted strLeP (scan_files listing f) :=
  List.sorted_insertionSort strLeP (scan_raw listing f).dedup

/-- The scan result has no duplicates. -/
theorem scan_files_nodup (listing : List String) (f : FormatFilter) :
    (scan_files listing f).Nodup :=
  ((List.perm_insertionSort strLeP (scan_raw listing f).dedup).nodup_iff).mpr
    (List.nodup_dedup (scan_raw listing f))

/-- The scan result does not depend on the enumeration order of the
directory listing. -/
theorem scan_files_perm_inv (l1 l2 : List String) (f : FormatFilter)
    (h : l1.Perm l2) : scan_files l1 f = scan_files l2 f := by
  refine List.eq_of_perm_of_sorted ?_ (scan_files_sorted l1 f)
    (scan_files_sorted l2 f)
  have hd : (scan_raw l1 f).dedup.Perm (scan_raw l2 f).dedup := by
    refine (List.perm_ext_iff_of_nodup (List.nodup_dedup _)
      (List.nodup_dedup _)).mpr ?_
    intro a
    rw [List.mem_dedup, List.mem_dedup, mem_scan_raw, mem_scan_raw]
    constructor
    · rintro ⟨e, he, hn, hg⟩
      exact ⟨e, he, h.mem_iff.mp hn, hg⟩
    · rintro ⟨e, he, hn, hg⟩
      exact ⟨e, he, h.mem_iff.mpr hn, hg⟩
  exact ((List.perm_insertionSort strLeP _).trans hd).trans
    (List.perm_insertionSort strLeP _).symm

/-- The progress events of the pdf loop are exactly the indices of the
fully successful items, in order. -/
theorem convert_to_pdf_loop_events_eq : ∀ (items : List PdfItem) (i : ℕ),
    (convert_to_pdf_loop i items).events
      = (items.enumFrom i).filterMap
        (fun p => if p.2.openOk && p.2.insertOk then some p.1 else none) := by
  intro items
  induction items with
  | nil => intro i; rfl
  | cons it rest ih =>
    intro i
    cases it with
    | mk o ins =>
      cases o with
      | false =>
        cases ins with
        | false =>
          show (convert_to_pdf_loop (i + 1) rest).events = _
          rw [ih (i + 1)]
          simp [List.enumFrom, List.filterMap_cons]
        | true =>
          show (convert_to_pdf_loop (i + 1) rest).events = _
          rw [ih (i + 1)]
          simp [List.enumFrom, List.filterMap_cons]
      | true =>
        cases ins with
        | false =>
          show (convert_to_pdf_loop (i + 1) rest).events = _
          rw [ih (i + 1)]
          simp [List.enumFrom, List.filterMap_cons]
        | true =>
          show i :: (convert_to_pdf_loop (i + 1) rest).events = _
          rw [ih (i + 1)]
          simp [List.enumFrom, List.filterMap_cons]

/-- Progress events of the pdf loop are strictly increasing and bounded
below by the start index. -/
theorem convert_to_pdf_loop_events : ∀ (items : List PdfItem) (i : ℕ),
    (convert_to_pdf_loop i items).events.Pairwise (· < ·)
    ∧ ∀ j ∈ (convert_to_pdf_loop i items).events, i ≤ j := by
  intro items
  induction items with
  | nil =>
    intro i
    exact ⟨List.Pairwise.nil, fun j hj => absurd hj (List.not_mem_nil j)⟩
  | cons it rest ih =>
    intro i
    have h := ih (i + 1)
    cases it with
    | mk o ins =>
      cases o with
      | false =>
        refine ⟨h.1, fun j hj => ?_⟩
        have := h.2 j hj
        omega
      | true =>
        cases ins with
        | false =>
          refine ⟨h.1, fun j hj => ?_⟩
          have := h.2 j hj
          omega
        | true =>
          constructor
          · exact List.Pairwise.cons (fun j hj => by have := h.2 j hj; omega)
              h.1
          · intro j hj
            rcases List.mem_cons.mp hj with rfl | hj2
            · exact le_refl j
            · have := h.2 j hj2
              omega

/-- Page, image, skip and event counts of the pdf loop: one page per
item that reaches new_page (openOk), one embedded image per fully
successful item, one skip per item that hits the except handler, one
event per embedded image. -/
theorem convert_to_pdf_loop_counts : ∀ (items : List PdfItem) (i : ℕ),
    (convert_to_pdf_loop i items).pages
      = items.countP (fun it => it.openOk)
    ∧ (convert_to_pdf_loop i items).images
      = items.countP (fun it => it.openOk && it.insertOk)
    ∧ (convert_to_pdf_loop i items).skipped
      = items.countP (fun it => !(it.openOk && it.insertOk))
    ∧ (convert_to_pdf_loop i items).events.length
      = (convert_to_pdf_loop i items).images := by
  intro items
  induction items with
  | nil => intro i; exact ⟨rfl, rfl, rfl, rfl⟩
  | cons it rest ih =>
    intro i
    have h := ih (i + 1)
    cases it with
    | mk o ins =>
      cases o with
      | false =>
        refine ⟨?_, ?_, ?_, h.2.2.2⟩
        · show (convert_to_pdf_loop (i + 1) rest).pages = _
          rw [List.countP_cons]
          simp [h.1]
        · show (convert_to_pdf_loop (i + 1) rest).images = _
          rw [List.countP_cons]
          simp [h.2.1]
        · show (convert_to_pdf_loop (i + 1) rest).skipped + 1 = _
          rw [List.countP_cons]
          simp [h.2.2.1]
      | true =>
        cases ins with
        | false =>
          refine ⟨?_, ?_, ?_, h.2.2.2⟩
          · show (convert_to_pdf_loop (i + 1) rest).pages + 1 = _
            rw [List.countP_cons]
            simp [h.1]
          · show (convert_to_pdf_loop (i + 1) rest).images = _
            rw [List.countP_cons]
            simp [h.2.1]
          · show (convert_to_pdf_loop (i + 1) rest).skipped + 1 = _
            rw [List.countP_cons]
            simp [h.2.2.1]
        | true =>
          refine ⟨?_, ?_, ?_, ?_⟩
          · show (convert_to_pdf_loop (i + 1) rest).pages + 1 = _
            rw [List.countP_cons]
            simp [h.1]
          · show (convert_to_pdf_loop (i + 1) rest).images + 1 = _
            rw [List.countP_cons]
            simp [h.2.1]
          · show (convert_to_pdf_loop (i + 1) rest).skipped = _
            rw [List.countP_cons]
            simp [h.2.2.1]
          · show (convert_to_pdf_loop (i + 1) rest).events.length + 1
              = (convert_to_pdf_loop (i + 1) rest).images + 1
            rw [h.2.2.2]

/-- When every item fully succeeds, the pdf loop emits one event per
item, at consecutive indices from the start index. -/
theorem convert_to_pdf_loop_all : ∀ (items : List PdfItem) (i : ℕ),
    (∀ it ∈ items, it.openOk = true ∧ it.insertOk = true) →
    (convert_to_pdf_loop i items).events = List.range' i items.length := by
  intro items
  induction items with
  | nil => intro i _; rfl
  | cons it rest ih =>
    intro i hall
    have hit := hall it (List.mem_cons_self it rest)
    have hrest : ∀ x ∈ rest, x.openOk = true ∧ x.insertOk = true :=
      fun x hx => hall x (List.mem_cons_of_mem it hx)
    cases it with
    | mk o ins =>
      have ho : o = true := hit.1
      have hins : ins = true := hit.2
      subst ho
      subst hins
      show i :: (convert_to_pdf_loop (i + 1) rest).events
        = List.range' i (rest.length + 1)
      rw [ih (i + 1) hrest]
      rfl

/-- Progress events of the ppt loop are strictly increasing and bounded
below by the start index. -/
theorem convert_to_ppt_loop_events : ∀ (items : List PptItem) (i : ℕ),
    (convert_to_ppt_loop i items).2.2.Pairwise (· < ·)
    ∧ ∀ j ∈ (convert_to_ppt_loop i items).2.2, i ≤ j := by
  intro items
  induction items with
  | nil =>
    intro i
    exact ⟨List.Pairwise.nil, fun j hj => absurd hj (List.not_mem_nil j)⟩
  | cons it rest ih =>
    intro i
    have h := ih (i + 1)
    cases it with
    | mk d ins =>
      cases d with
      | false =>
        refine ⟨h.1, fun j hj => ?_⟩
        have := h.2 j hj
        omega
      | true =>
        cases ins with
        | false =>
          refine ⟨h.1, fun j hj => ?_⟩
          have := h.2 j hj
          omega
        | true =>
          constructor
          · exact List.Pairwise.cons (fun j hj => by have := h.2 j hj; omega)
              h.1
          · intro j hj
            rcases List.mem_cons.mp hj with rfl | hj2
            · exact le_refl j
            · have := h.2 j hj2
              omega

/-- Slide and picture counts of the ppt loop: one slide per item whose
dimensions were readable, one picture per item also inserted. -/
theorem convert_to_ppt_loop_slides : ∀ (items : List PptItem) (i : ℕ),
    (convert_to_ppt_loop i items).1
      = items.countP (fun it => it.dimsOk)
    ∧ (convert_to_ppt_loop i items).2.1
      = items.countP (fun it => it.dimsOk && it.insertOk) := by
  intro items
  induction items with
  | nil => intro i; exact ⟨rfl, rfl⟩
  | cons it rest ih =>
    intro i
    have h := ih (i + 1)
    cases it with
    | mk d ins =>
      cases d with
      | false =>
        constructor
        · show (convert_to_ppt_loop (i + 1) rest).1 = _
          rw [List.countP_cons]
          simp [h.1]
        · show (convert_to_ppt_loop (i + 1) rest).2.1 = _
          rw [List.countP_cons]
          simp [h.2]
      | true =>
        cases ins with
        | false =>
          constructor
          · show (convert_to_ppt_loop (i + 1) rest).1 + 1 = _
            rw [List.countP_cons]
            simp [h.1]
          · show (convert_to_ppt_loop (i + 1) rest).2.1 = _
            rw [List.countP_cons]
            simp [h.2]
        | true =>
          constructor
          · show (convert_to_ppt_loop (i + 1) rest).1 + 1 = _
            rw [List.countP_cons]
            simp [h.1]
          · show (convert_to_ppt_loop (i + 1) rest).2.1 + 1 = _
            rw [List.countP_cons]
            simp [h.2]

/-- The progress events of the ppt loop are exactly the indices of the
fully successful items, in order. -/
theorem convert_to_ppt_loop_events_eq : ∀ (items : List PptItem) (i : ℕ),
    (convert_to_ppt_loop i items).2.2
      = (items.enumFrom i).filterMap
        (fun p => if p.2.dimsOk && p.2.insertOk then some p.1 else none) := by
  intro items
  induction items with
  | nil => intro i; rfl
  | cons it rest ih =>
    intro i
    cases it with
    | mk d ins =>
      cases d with
      | false =>
        cases ins with
        | false =>
          show (convert_to_ppt_loop (i + 1) rest).2.2 = _
          rw [ih (i + 1)]
          simp [List.enumFrom, List.filterMap_cons]
        | true =>
          show (convert_to_ppt_loop (i + 1) rest).2.2 = _
          rw [ih (i + 1)]
          simp [List.enumFrom, List.filterMap_cons]
      | true =>
        cases ins with
        | false =>
          show (convert_to_ppt_loop (i + 1) rest).2.2 = _
          rw [ih (i + 1)]
          simp [List.enumFrom, List.filterMap_cons]
        | true =>
          show i :: (convert_to_ppt_loop (i + 1) rest).2.2 = _
          rw [ih (i + 1)]
          simp [List.enumFrom, List.filterMap_cons]

/-- One ppt progress event per inserted picture. -/
theorem convert_to_ppt_loop_events_length : ∀ (items : List PptItem) (i : ℕ),
    (convert_to_ppt_loop i items).2.2.length = (convert_to_ppt_loop i items).2.1 := by
  intro items
  induction items with
  | nil => intro i; rfl
  | cons it rest ih =>
    intro i
    have h := ih (i + 1)
    cases it with
    | mk d ins =>
      cases d with
      | false => exact h
      | true =>
        cases ins with
        | false => exact h
        | true =>
          show (convert_to_ppt_loop (i + 1) rest).2.2.length + 1
            = (convert_to_ppt_loop (i + 1) rest).2.1 + 1
          rw [h]

/-- When every item fully succeeds, the ppt loop emits one event per
item, at consecutive indices from the start index. -/
theorem convert_to_ppt_loop_all : ∀ (items : List PptItem) (i : ℕ),
    (∀ it ∈ items, it.dimsOk = true ∧ it.insertOk = true) →
    (convert_to_ppt_loop i items).2.2 = List.range' i items.length := by
  intro items
  induction items with
  | nil => intro i _; rfl
  | cons it rest ih =>
    intro i hall
    have hit := hall it (List.mem_cons_self it rest)
    have hrest : ∀ x ∈ rest, x.dimsOk = true ∧ x.insertOk = true :=
      fun x hx => hall x (List.mem_cons_of_mem it hx)
    cases it with
    | mk d ins =>
      have hd : d = true := hit.1
      have hins : ins = true := hit.2
      subst hd
      subst hins
      show i :: (convert_to_ppt_loop (i + 1) rest).2.2
        = List.range' i (rest.length + 1)
      rw [ih (i + 1) hrest]
      rfl

/-- Claim C1 (amended): under the Blank layout the image is placed at
the fixed offset Inches(0.5), i.e. half of EMU_PER_INCH, from the
top-left in both axes, and the width and height handed to the library
are the raw pixel dimensions used directly as length values in the
library base unit (EMU), with no scaling applied to the numbers. -/
theorem c1_blank_placement : ∀ w h : ℕ,
    (convert_to_ppt_blank_placement w h).left = EMU_PER_INCH / 2
    ∧ (convert_to_ppt_blank_placement w h).top = EMU_PER_INCH / 2
    ∧ (convert_to_ppt_blank_placement w h).width = (w : ℤ)
    ∧ (convert_to_ppt_blank_placement w h).height = (h : ℤ) := by
  intro w h
  have hhalf : inchesHalf = EMU_PER_INCH / 2 := by decide
  exact ⟨hhalf, hhalf, rfl, rfl⟩

/-- Claim C1 counterexample: for an image 100 pixels wide, the width
value handed to the deck library is 100 EMU, not the 100 points
(100 times EMU_PER_POINT in EMU) that a one-point-per-pixel placement
would require. -/
theorem c1_counterexample :
    (convert_to_ppt_blank_placement 100 80).width = 100
    ∧ ¬ ((convert_to_ppt_blank_placement 100 80).width
        = EMU_PER_POINT * 100) := by
  exact ⟨rfl, by decide⟩

/-- Claim C2: evaluation at the failing input. With 2 catalog entries
and index 0 selected, reverse_selection yields the full set, because the
loop adds every unselected index but never clears a selected one; the
complement required by the claim and by the function name is the
singleton of index 1. -/
theorem c2_reverse_selection_eval :
    reverse_selection 2 {0} = {0, 1}
    ∧ ¬ (reverse_selection 2 {0} = ({1} : Finset ℕ)) := by
  constructor <;> decide

/-- Claim C3 (amended): in both exporters the progress events are
exactly the indices of the fully successful entries, in order: one
event per entry whose image is actually embedded, strictly increasing,
and none for a skipped entry, including an entry that failed only at
insertion and left a blank page or slide. When every entry succeeds, a
run over n entries emits exactly n events, ending at index n - 1. -/
theorem c3_progress_events : ∀ (pdfItems : List PdfItem)
    (pptItems : List PptItem),
    (convert_to_pdf_run pdfItems).events
      = (pdfItems.enumFrom 0).filterMap
        (fun p => if p.2.openOk && p.2.insertOk then some p.1 else none)
    ∧ (convert_to_ppt_run pptItems).events
      = (pptItems.enumFrom 0).filterMap
        (fun p => if p.2.dimsOk && p.2.insertOk then some p.1 else none)
    ∧ (convert_to_pdf_run pdfItems).events.Pairwise (· < ·)
    ∧ (convert_to_ppt_run pptItems).events.Pairwise (· < ·)
    ∧ (convert_to_pdf_run pdfItems).events.length
        = (convert_to_pdf_run pdfItems).images
    ∧ (convert_to_ppt_run pptItems).events.length
        = (convert_to_ppt_run pptItems).pics
    ∧ ((∀ it ∈ pdfItems, it.openOk = true ∧ it.insertOk = true) →
        (convert_to_pdf_run pdfItems).events = List.range pdfItems.length)
    ∧ ((∀ it ∈ pptItems, it.dimsOk = true ∧ it.insertOk = true) →
        (convert_to_ppt_run pptItems).events = List.range pptItems.length) := by
  intro pdfItems pptItems
  refine ⟨?_, ?_, ?_, ?_, ?_, ?_, ?_, ?_⟩
  · exact convert_to_pdf_loop_events_eq pdfItems 0
  · exact convert_to_ppt_loop_events_eq pptItems 0
  · exact (convert_to_pdf_loop_events pdfItems 0).1
  · exact (convert_to_ppt_loop_events pptItems 0).1
  · exact (convert_to_pdf_loop_counts pdfItems 0).2.2.2
  · exact convert_to_ppt_loop_events_length pptItems 0
  · intro hall
    rw [List.range_eq_range']
    exact convert_to_pdf_loop_all pdfItems 0 hall
  · intro hall
    rw [List.range_eq_range']
    exact convert_to_ppt_loop_all pptItems 0 hall

/-- Claim C3 witness: fully successful runs emit the events 0 and 1 for
two pdf entries, and the event 0 for one ppt entry. -/
theorem c3_progress_events_witness :
    (convert_to_pdf_run [⟨true, true⟩, ⟨true, true⟩]).events = List.range 2
    ∧ (convert_to_ppt_run [⟨true, true⟩]).events = List.range 1 :=
  ⟨(c3_progress_events [⟨true, true⟩, ⟨true, true⟩]
      [⟨true, true⟩]).2.2.2.2.2.2.1 (by decide),
   (c3_progress_events [⟨true, true⟩, ⟨true, true⟩]
      [⟨true, true⟩]).2.2.2.2.2.2.2 (by decide)⟩

/-- Claim C3 counterexample: a single-entry run whose entry fails emits
no progress event at all, not the one event per attempt that the claim
requires; this also holds for a pdf entry that fails only at insertion
after its page was appended. -/
theorem c3_counterexample :
    (convert_to_pdf_run [⟨false, false⟩]).events = []
    ∧ (convert_to_pdf_run [⟨true, false⟩]).events = []
    ∧ (convert_to_ppt_run [⟨false, false⟩]).events = []
    ∧ ¬ ((convert_to_pdf_run [⟨false, false⟩]).events = [0]) := by
  exact ⟨rfl, rfl, rfl, by decide⟩

/-- Claim C4 (amended): on an empty or non-directory input path,
scan_folder emits the diagnostic and returns early leaving the catalog
exactly as it was, so the catalog is empty only if it was already
empty; the early return means no crash. -/
theorem c4_invalid_scan : ∀ (prev : List String) (folder : String)
    (isDir : Bool) (f : FormatFilter) (listing : List String),
    strTrim folder = "" ∨ isDir = false →
    scan_folder prev folder isDir f listing = (prev, [scanErrorLog]) := by
  intro prev folder isDir f listing h
  unfold scan_folder
  rw [if_pos h]

/-- Claim C4 witness: a missing directory with a previously scanned
catalog leaves that catalog in place with the diagnostic. -/
theorem c4_invalid_scan_witness :
    scan_folder ["a.png"] "missing" false FormatFilter.all []
      = (["a.png"], [scanErrorLog]) :=
  c4_invalid_scan ["a.png"] "missing" false FormatFilter.all [] (Or.inr rfl)

/-- Claim C4 counterexample: after a missing-directory scan the catalog
is the old nonempty one, refuting the claim that it becomes empty. -/
theorem c4_counterexample :
    (scan_folder ["a.png"] "missing" false FormatFilter.all []).1 = ["a.png"]
    ∧ ¬ ((scan_folder ["a.png"] "missing" false FormatFilter.all []).1
        = []) := by
  constructor <;> decide

/-- Claim C5 (amended): move_up on a selection whose first index is 0,
and move_down on a selection whose last index is the last catalog
index, are no-ops for the whole catalog, moving nothing at all; in
every other case each selected index moves exactly one slot in the move
direction by an adjacent swap. -/
theorem c5_move_semantics :
    (∀ (rest : List ℕ) (files : List String),
      move_up (0 :: rest) files = files)
    ∧ (∀ (sel : List ℕ) (files : List String), sel ≠ [] →
        sel.getLastD 0 + 1 = files.length → move_down sel files = files)
    ∧ (∀ (sel : List ℕ) (files : List String), List.Sorted (· < ·) sel →
        0 ∉ sel → (∀ i ∈ sel, i < files.length) →
        ∀ j ∈ sel, (move_up sel files)[j - 1]? = files[j]?)
    ∧ (∀ (sel : List ℕ) (files : List String), List.Sorted (· < ·) sel →
        (∀ i ∈ sel, i + 1 < files.length) →
        ∀ j ∈ sel, (move_down sel files)[j + 1]? = files[j]?) := by
  refine ⟨fun rest files => rfl, ?_, move_up_moves, move_down_moves⟩
  intro sel files hne hlen
  have hA : sel.isEmpty = false := by
    cases sel with
    | nil => exact absurd rfl hne
    | cons a t => rfl
  unfold move_down
  rw [hA]
  rw [if_neg Bool.false_ne_true]
  rw [if_pos (by omega : (sel.getLastD 0 : ℤ) = (files.length : ℤ) - 1)]

/-- Claim C5 witness: boundary selections are no-ops, and an interior
selection of indices 1 and 2 moves both entries one slot. -/
theorem c5_move_semantics_witness :
    move_up [0] ["a", "b"] = ["a", "b"]
    ∧ move_down [1] ["a", "b"] = ["a", "b"]
    ∧ (move_up [1, 2] ["a", "b", "c", "d"])[0]? = some "b"
    ∧ (move_down [1, 2] ["a", "b", "c", "d"])[3]? = some "c" := by
  refine ⟨c5_move_semantics.1 [] ["a", "b"],
    c5_move_semantics.2.1 [1] ["a", "b"] (by decide) (by decide), ?_, ?_⟩
  · have h := c5_move_semantics.2.2.1 [1, 2] ["a", "b", "c", "d"]
      (by decide) (by decide) (by decide) 1 (by decide)
    rw [h]
    decide
  · have h := c5_move_semantics.2.2.2 [1, 2] ["a", "b", "c", "d"]
      (by decide) (by decide) 2 (by decide)
    rw [h]
    decide

/-- Claim C5 counterexample: with selection of indices 0 and 2 on a
3-entry catalog, the claim requires index 2 to still move up, giving
the order a, c, b; the code returns the catalog unchanged, because a
selection containing the boundary index aborts the whole move. -/
theorem c5_counterexample :
    move_up [0, 2] ["a", "b", "c"] = ["a", "b", "c"]
    ∧ ¬ (move_up [0, 2] ["a", "b", "c"] = ["a", "c", "b"]) := by
  constructor <;> decide

/-- Claim C6 (amended): a scan returns exactly the listed names matched
by some allowed extension glob, that is, names that end
case-insensitively in a supported (and filter-kept) extension and do
not start with a dot; the result is lexicographically sorted, has no
duplicates, and does not depend on the enumeration order. -/
theorem c6_scan_exact : ∀ (listing : List String) (f : FormatFilter),
    (∀ name, name ∈ scan_files listing f ↔
      name ∈ listing
      ∧ (allowedExts f).any (fun e => globMatch e name) = true)
    ∧ List.Sorted strLeP (scan_files listing f)
    ∧ (scan_files listing f).Nodup
    ∧ ∀ listing2, listing.Perm listing2 →
        scan_files listing f = scan_files listing2 f := by
  intro listing f
  exact ⟨mem_scan_files listing f, scan_files_sorted listing f,
    scan_files_nodup listing f, fun l2 h => scan_files_perm_inv listing l2 f h⟩

/-- Claim C6 witness: scanning the same two files listed in either
order gives the same catalog. -/
theorem c6_scan_exact_witness :
    scan_files ["b.png", "a.jpg"] FormatFilter.all
      = scan_files ["a.jpg", "b.png"] FormatFilter.all :=
  (c6_scan_exact ["b.png", "a.jpg"] FormatFilter.all).2.2.2
    ["a.jpg", "b.png"] (List.Perm.swap "a.jpg" "b.png" [])

/-- Claim C6 counterexample: a dot-prefixed file whose extension is in
the supported set is excluded by the glob patterns, so the scan does not
return exactly the files with supported extensions. -/
theorem c6_counterexample :
    specHasSupportedExt ".a.jpg" = true
    ∧ scan_files [".a.jpg"] FormatFilter.all = []
    ∧ ¬ (scan_files [".a.jpg"] FormatFilter.all = [".a.jpg"]) := by
  exact ⟨by decide, by decide, by decide⟩

/-- Claim C7 (amended): in Recompress mode only RGBA and CMYK sources
are converted to RGB before the JPEG encoding (alpha discarded, not
composited); every other mode is passed to the encoder unchanged, and
whatever mode ends up embedded never carries an alpha channel. -/
theorem c7_recompress :
    (∀ m m2 : PILMode, recompress_embed m = some m2 → hasAlpha m2 = false)
    ∧ normalizeForJpeg PILMode.RGBA = PILMode.RGB
    ∧ normalizeForJpeg PILMode.CMYK = PILMode.RGB
    ∧ (∀ m : PILMode, m ≠ PILMode.RGBA → m ≠ PILMode.CMYK →
        normalizeForJpeg m = m) := by
  refine ⟨?_, rfl, rfl, ?_⟩ <;> decide

/-- Claim C7 witness: an RGBA source is embedded as RGB, which has no
alpha channel. -/
theorem c7_recompress_witness : hasAlpha PILMode.RGB = false :=
  c7_recompress.1 PILMode.RGBA PILMode.RGB rfl

/-- Claim C7 counterexample: a grayscale (L) source is processed and
embedded still as 1-channel grayscale, not normalized to a 3-channel
RGB representation; and an LA source, although it carries alpha, is not
converted at all: its JPEG save raises and the item is skipped. -/
theorem c7_counterexample :
    recompress_embed PILMode.L = some PILMode.L
    ∧ channels PILMode.L = 1
    ∧ ¬ (channels PILMode.L = 3)
    ∧ recompress_embed PILMode.LA = none := by
  exact ⟨rfl, rfl, by decide, rfl⟩

/-- Claim C8 (amended): an item that fails before its page or slide is
created is logged and skipped, contributes no page or slide, and the
batch always continues: the 3-item batch whose middle item fails to
open yields 2 pages or 2 slides with 1 item skipped. However, in both
exporters the page or slide is created before the insertion attempt, so
an item that opens and then fails to insert leaves an already-added
blank page or slide; and no itemsSkipped count is reported: the pdf
path reports sizes and compression only, and the ppt completion log
states the total entry count as the slide count. -/
theorem c8_skip_semantics :
    (∀ items : List PdfItem,
      (convert_to_pdf_run items).pages
        = items.countP (fun it => it.openOk))
    ∧ (∀ items : List PdfItem,
      (convert_to_pdf_run items).images
        = items.countP (fun it => it.openOk && it.insertOk))
    ∧ (convert_to_pdf_run [⟨true, true⟩, ⟨false, false⟩, ⟨true, true⟩]).pages
        = 2
    ∧ (convert_to_pdf_run
        [⟨true, true⟩, ⟨false, false⟩, ⟨true, true⟩]).skipped = 1
    ∧ (convert_to_ppt_run
        [⟨true, true⟩, ⟨false, false⟩, ⟨true, true⟩]).slides = 2
    ∧ (convert_to_ppt_run
        [⟨true, true⟩, ⟨false, false⟩, ⟨true, true⟩]).reportedSlides = 3 := by
  refine ⟨fun items => (convert_to_pdf_loop_counts items 0).1,
    fun items => (convert_to_pdf_loop_counts items 0).2.1,
    by decide, by decide, by decide, by decide⟩

/-- Claim C8 counterexample: in both exporters an item whose image
opens but whose insertion fails leaves the blank page or slide that was
already added, so a 3-item batch with such a middle item yields 3 pages
and 3 slides with only 2 images embedded, not the 2 pages or slides the
claim requires of a skipped item. -/
theorem c8_counterexample :
    (convert_to_ppt_run
      [⟨true, true⟩, ⟨true, false⟩, ⟨true, true⟩]).slides = 3
    ∧ (convert_to_pdf_run
      [⟨true, true⟩, ⟨true, false⟩, ⟨true, true⟩]).pages = 3
    ∧ (convert_to_pdf_run
      [⟨true, true⟩, ⟨true, false⟩, ⟨true, true⟩]).images = 2
    ∧ ¬ ((convert_to_ppt_run
      [⟨true, true⟩, ⟨true, false⟩, ⟨true, true⟩]).slides = 2)
    ∧ ¬ ((convert_to_pdf_run
      [⟨true, true⟩, ⟨true, false⟩, ⟨true, true⟩]).pages = 2) := by
  exact ⟨by decide, by decide, by decide, by decide, by decide⟩

/-- Claim C9: a conversion request with an empty catalog or a blank
output path is rejected synchronously by start_conversion, before the
worker thread and hence any exporter is started: the outcome is one of
the two rejection constructors, which carry no exporter work. -/
theorem c9_validation : ∀ (files : List String) (out : String)
    (fmt : OutputFormat),
    files = [] ∨ strTrim out = "" →
    isRejected (start_conversion files out fmt) = true := by
  intro files out fmt h
  rcases h with rfl | hout
  · rfl
  · unfold start_conversion
    by_cases hf : files.isEmpty
    · rw [if_pos hf]
      rfl
    · rw [if_neg hf, if_pos hout]
      rfl

/-- Claim C9 witness: the empty catalog and the blank output path are
both rejected. -/
theorem c9_validation_witness :
    isRejected (start_conversion [] "out.pdf" OutputFormat.pdf) = true
    ∧ isRejected (start_conversion ["a.jpg"] "   " OutputFormat.ppt)
        = true :=
  ⟨c9_validation [] "out.pdf" OutputFormat.pdf (Or.inl rfl),
   c9_validation ["a.jpg"] "   " OutputFormat.ppt (Or.inr (by decide))⟩

/-- Claim C10: move_up and move_down always return a permutation of the
catalog: the length is unchanged and the multiset of entries is exactly
preserved, for every selection whatsoever. -/
theorem c10_move_perm : ∀ (sel : List ℕ) (files : List String),
    List.Perm (move_up sel files) files
    ∧ List.Perm (move_down sel files) files
    ∧ (move_up sel files).length = files.length
    ∧ (move_down sel files).length = files.length := by
  intro sel files
  have hu : List.Perm (move_up sel files) files := by
    unfold move_up
    split
    · exact List.Perm.refl files
    · split
      · exact List.Perm.refl files
      · exact foldl_perm_of_step moveUpStep moveUpStep_perm sel files
  have hd : List.Perm (move_down sel files) files := by
    unfold move_down
    split
    · exact List.Perm.refl files
    · split
      · exact List.Perm.refl files
      · exact foldl_perm_of_step moveDownStep moveDownStep_perm
          sel.reverse files
  exact ⟨hu, hd, hu.length_eq, hd.length_eq⟩

